import Mathlib

/-!
Verification of the InvestmentSummary dashboard core: the series
normalization / portfolio-weighted aggregation in `src/App.tsx`
(`normalizeData`) and the holdings management in
`src/components/PortfolioManager.tsx` (`handleSharesChange`, `pieData`,
and the valuation table).

JavaScript numbers are modelled by `JsNum`: either an exact rational
(idealizing IEEE rounding) or one of the non-finite values `nan`, `inf`,
`ninf` that JS division by zero can produce.  Chart rows are association
lists from symbol keys to values; a key absent from the list models a
property absent from the JS object (`undefined`), while a present key
mapping to `none` models an explicit `null` entry.
-/

/-- Model of a JavaScript number: an exact rational, or NaN / ±Infinity. -/
inductive JsNum where
  | nan : JsNum
  | inf : JsNum
  | ninf : JsNum
  | num : ℚ → JsNum
deriving DecidableEq, Repr

namespace JsNum

/-- JS addition on `JsNum` (finite values add exactly; NaN absorbs;
`inf + ninf = nan`). -/
def add : JsNum → JsNum → JsNum
  | nan, _ => nan
  | _, nan => nan
  | inf, ninf => nan
  | inf, _ => inf
  | ninf, inf => nan
  | ninf, _ => ninf
  | num _, inf => inf
  | num _, ninf => ninf
  | num a, num b => num (a + b)

/-- JS multiplication on `JsNum` (NaN absorbs; `inf * 0 = nan`; signs as
in IEEE). -/
def mul : JsNum → JsNum → JsNum
  | nan, _ => nan
  | _, nan => nan
  | inf, inf => inf
  | inf, ninf => ninf
  | ninf, inf => ninf
  | ninf, ninf => inf
  | inf, num a => if a = 0 then nan else if 0 < a then inf else ninf
  | ninf, num a => if a = 0 then nan else if 0 < a then ninf else inf
  | num a, inf => if a = 0 then nan else if 0 < a then inf else ninf
  | num a, ninf => if a = 0 then nan else if 0 < a then ninf else inf
  | num a, num b => num (a * b)

/-- JS division on `JsNum`.  The case the program exercises on degenerate
input: `a / 0` is `nan` when `a = 0`, `±inf` otherwise. -/
def div : JsNum → JsNum → JsNum
  | nan, _ => nan
  | _, nan => nan
  | inf, inf => nan
  | inf, ninf => nan
  | ninf, inf => nan
  | ninf, ninf => nan
  | inf, num a => if 0 ≤ a then inf else ninf
  | ninf, num a => if 0 ≤ a then ninf else inf
  | num _, inf => num 0
  | num _, ninf => num 0
  | num a, num b =>
      if b = 0 then (if a = 0 then nan else if 0 < a then inf else ninf)
      else num (a / b)

end JsNum

/-- First-match lookup in an association list, as JS property access on an
object built by first-wins insertion. -/
def lookupKey {α : Type} (k : String) : List (String × α) → Option α
  | [] => none
  | (k', v) :: rest => if k' = k then some v else lookupKey k rest

/-- One point of `ChartData`: the `date` label, plus the symbol-keyed
price entries.  `some none` models a key present with value `null`;
a key absent from the list models `undefined`. -/
structure ChartPoint where
  date : String
  vals : List (String × Option ℚ)
deriving DecidableEq, Repr

/-- A holding of the `Portfolio` (from `types/portfolio.ts`:
`PortfolioHolding` with optional `currentPrice`). -/
structure PortfolioHolding where
  symbol : String
  shares : ℚ
  currentPrice : Option ℚ := none
deriving DecidableEq, Repr

/-- The `Portfolio` of `types/portfolio.ts`. -/
structure Portfolio where
  holdings : List PortfolioHolding
  lastUpdated : String
deriving DecidableEq, Repr

/-- One output point of `normalizeData`: date label, normalized entries,
and the `TOTAL` field. -/
structure NormPoint where
  date : String
  vals : List (String × JsNum)
  TOTAL : JsNum
deriving DecidableEq, Repr

/-- The base-value scan of `normalizeData`: for symbol `k`, the first
non-`null`, non-`undefined` value found scanning the data forward. -/
def firstValid (k : String) : List ChartPoint → Option ℚ
  | [] => none
  | p :: rest =>
      match lookupKey k p.vals with
      | some (some q) => some q
      | _ => firstValid k rest

/-- Construction of the `baseValues` map of `normalizeData`: one entry per
key of the FIRST data point (the `Object.keys(data[0])` iteration) for
which the forward scan finds a value. -/
def scanBases (keys : List String) (data : List ChartPoint) : List (String × ℚ) :=
  keys.filterMap (fun k => (firstValid k data).map (fun q => (k, q)))

/-- The `baseValues` map of `normalizeData` for a full input list (empty
when the input is empty, where the real code throws before using it). -/
def baseValuesOf (data : List ChartPoint) : List (String × ℚ) :=
  match data with
  | [] => []
  | first :: _ => scanBases (first.vals.map Prod.fst) data

/-- The per-point normalization loop of `normalizeData`: every key whose
value at this point is present (not `null`, not `undefined`) gets
`(value / baseValues[key]) * 100`; in JS a missing base gives
`value / undefined = NaN`. -/
def normPointVals (bases : List (String × ℚ)) (vals : List (String × Option ℚ)) :
    List (String × JsNum) :=
  vals.filterMap (fun kv =>
    match kv.2 with
    | none => none
    | some q =>
        some (kv.1,
          JsNum.mul
            (match lookupKey kv.1 bases with
             | some b => JsNum.div (JsNum.num q) (JsNum.num b)
             | none => JsNum.nan)
            (JsNum.num 100)))

/-- The `totalInvestment` reduce of `normalizeData`: the sum of shares
over non-CASH holdings. -/
def totalInvestment (portfolio : Portfolio) : ℚ :=
  (portfolio.holdings.filter (fun h => h.symbol ≠ "CASH")).foldl
    (fun sum h => sum + h.shares) 0

/-- The callback of the `weightedTotal` reduce of `normalizeData`: when
the normalized point has a defined entry for the holding's symbol,
accumulate `value * (shares / totalInvestment)` in JS arithmetic,
otherwise return the accumulator unchanged. -/
def wtStep (ti : ℚ) (nvals : List (String × JsNum)) (sum : JsNum)
    (h : PortfolioHolding) : JsNum :=
  match lookupKey h.symbol nvals with
  | some v =>
      JsNum.add sum (JsNum.mul v (JsNum.div (JsNum.num h.shares) (JsNum.num ti)))
  | none => sum

/-- The `weightedTotal` reduce of `normalizeData`: over non-CASH holdings,
fold `wtStep` starting from 0. -/
def weightedTotal (holdings : List PortfolioHolding) (ti : ℚ)
    (nvals : List (String × JsNum)) : JsNum :=
  (holdings.filter (fun h => h.symbol ≠ "CASH")).foldl (wtStep ti nvals) (JsNum.num 0)

/-- The `normalizeData` function of `src/App.tsx`.  On the empty list the
real code evaluates `Object.keys(data[0])` with `data[0] = undefined` and
throws; this is modelled by `none`. -/
def normalizeData (data : List ChartPoint) (portfolio : Portfolio) :
    Option (List NormPoint) :=
  match data with
  | [] => none
  | first :: rest =>
      let ti := totalInvestment portfolio
      let bases := scanBases (first.vals.map Prod.fst) (first :: rest)
      some ((first :: rest).map (fun p =>
        let nvals := normPointVals bases p.vals
        { date := p.date
          vals := nvals
          TOTAL := weightedTotal portfolio.holdings ti nvals }))

/-- The `handleSharesChange` state update of `PortfolioManager.tsx`:
replace the shares of every holding whose symbol matches with
`Math.max(0, shares)`, keep all other holdings, and stamp `lastUpdated`
with the current time (passed here as `now`). -/
def handleSharesChange (prev : Portfolio) (symbol : String) (shares : ℚ)
    (now : String) : Portfolio :=
  { holdings := prev.holdings.map (fun holding =>
      if holding.symbol = symbol then { holding with shares := max 0 shares }
      else holding)
    lastUpdated := now }

/-- The value assigned to a holding by the `pieData` map of
`PortfolioManager.tsx`: for CASH the shares themselves (dollars), else
`shares * (currentPrices[symbol + ".AX"] || 0)`; over exact rationals the
JS `|| 0` fallback coincides with defaulting an absent lookup to 0. -/
def pieValue (currentPrices : List (String × ℚ)) (h : PortfolioHolding) : ℚ :=
  if h.symbol = "CASH" then h.shares
  else h.shares * ((lookupKey (h.symbol ++ ".AX") currentPrices).getD 0)

/-- The `pieData` list of `PortfolioManager.tsx`: name/value pairs for all
holdings, keeping only strictly positive values. -/
def pieData (currentPrices : List (String × ℚ)) (portfolio : Portfolio) :
    List (String × ℚ) :=
  (portfolio.holdings.map (fun h => (h.symbol, pieValue currentPrices h))).filter
    (fun item => 0 < item.2)

/-- The `totalValue` reduce of `PortfolioManager.tsx`: sum of the
`pieData` values. -/
def totalValue (currentPrices : List (String × ℚ)) (portfolio : Portfolio) : ℚ :=
  (pieData currentPrices portfolio).foldl (fun sum item => sum + item.2) 0

/-- The `currentPrice` of a table row of `PortfolioManager.tsx`: 1 for
CASH, else `currentPrices[symbol + ".AX"] || 0`. -/
def rowPrice (currentPrices : List (String × ℚ)) (h : PortfolioHolding) : ℚ :=
  if h.symbol = "CASH" then 1
  else (lookupKey (h.symbol ++ ".AX") currentPrices).getD 0

/-- The `value` of a table row of `PortfolioManager.tsx`:
`shares * currentPrice`. -/
def rowValue (currentPrices : List (String × ℚ)) (h : PortfolioHolding) : ℚ :=
  h.shares * rowPrice currentPrices h

/-- The `weight` of a table row of `PortfolioManager.tsx`:
`totalValue ? (value / totalValue) * 100 : 0` — a percentage; over exact
rationals the truthiness test is a zero test. -/
def rowWeight (currentPrices : List (String × ℚ)) (portfolio : Portfolio)
    (h : PortfolioHolding) : ℚ :=
  if totalValue currentPrices portfolio = 0 then 0
  else (rowValue currentPrices h / totalValue currentPrices portfolio) * 100

/-- A chart point carries no usable value for key `k`: every entry under
`k` is an explicit `null` (and possibly the key is absent altogether).
This is the condition under which both the `!== null` and `!== undefined`
guards of `normalizeData` reject the point for `k`. -/
def absentAt (k : String) (p : ChartPoint) : Prop :=
  ∀ kv ∈ p.vals, kv.1 = k → kv.2 = none

/-- Erasure of every entry for key `k` from a chart point, used to state
that an all-absent series does not influence the rest of the
computation. -/
def erasePointKey (k : String) (p : ChartPoint) : ChartPoint :=
  { date := p.date, vals := p.vals.filter (fun kv => kv.1 ≠ k) }

/-! Helper lemmas about the JS arithmetic and the association-list
operations. -/

theorem JsNum.add_nan_right (s : JsNum) : JsNum.add s JsNum.nan = JsNum.nan := by
  cases s <;> rfl

theorem JsNum.add_nan_left (s : JsNum) : JsNum.add JsNum.nan s = JsNum.nan := by
  cases s <;> rfl

theorem JsNum.mul_nan_right (v : JsNum) : JsNum.mul v JsNum.nan = JsNum.nan := by
  cases v <;> rfl

theorem JsNum.mul_nan_left (v : JsNum) : JsNum.mul JsNum.nan v = JsNum.nan := by
  cases v <;> rfl

theorem JsNum.div_zero_zero : JsNum.div (JsNum.num 0) (JsNum.num 0) = JsNum.nan := by
  simp [JsNum.div]

theorem lookupKey_mem {α : Type} {k : String} {l : List (String × α)} {v : α}
    (h : lookupKey k l = some v) : (k, v) ∈ l := by
  induction l with
  | nil => simp [lookupKey] at h
  | cons kv rest ih =>
      obtain ⟨k', v'⟩ := kv
      by_cases hk : k' = k
      · subst hk
        simp [lookupKey] at h
        simp [h]
      · simp [lookupKey, hk] at h
        exact List.mem_cons_of_mem _ (ih h)

theorem absentAt_lookup {k : String} {p : ChartPoint} (h : absentAt k p) (q : ℚ) :
    lookupKey k p.vals ≠ some (some q) := by
  intro hl
  have hmem := lookupKey_mem hl
  have := h _ hmem rfl
  simp at this

theorem firstValid_eq_none {k : String} {data : List ChartPoint}
    (h : ∀ p ∈ data, absentAt k p) : firstValid k data = none := by
  induction data with
  | nil => rfl
  | cons p rest ih =>
      have hp := h p (List.mem_cons_self _ _)
      have hr : ∀ p' ∈ rest, absentAt k p' := fun p' hp' =>
        h p' (List.mem_cons_of_mem _ hp')
      show (match lookupKey k p.vals with
        | some (some q) => some q
        | _ => firstValid k rest) = none
      cases hl : lookupKey k p.vals with
      | none => exact ih hr
      | some v =>
          cases v with
          | none => exact ih hr
          | some q => exact absurd hl (absentAt_lookup hp q)

theorem lookup_scanBases_of_none {k : String} {data : List ChartPoint}
    (h : firstValid k data = none) (keys : List String) :
    lookupKey k (scanBases keys data) = none := by
  induction keys with
  | nil => rfl
  | cons k' ks ih =>
      by_cases hk : k' = k
      · subst hk
        simp [scanBases, List.filterMap_cons, h] at *
        exact ih
      · cases hf : firstValid k' data with
        | none =>
            simp [scanBases, List.filterMap_cons, hf] at *
            exact ih
        | some b =>
            simp [scanBases, List.filterMap_cons, hf, lookupKey, hk] at *
            exact ih

theorem lookup_scanBases {k : String} {data : List ChartPoint} {keys : List String}
    (hk : k ∈ keys) :
    lookupKey k (scanBases keys data) = firstValid k data := by
  induction keys with
  | nil => cases hk
  | cons k' ks ih =>
      by_cases he : k' = k
      · subst he
        cases hf : firstValid k' data with
        | none =>
            simp [scanBases, List.filterMap_cons, hf]
            exact lookup_scanBases_of_none hf ks
        | some b =>
            simp [scanBases, List.filterMap_cons, hf, lookupKey]
      · have hk' : k ∈ ks := by
          cases List.mem_cons.mp hk with
          | inl h => exact absurd h.symm he
          | inr h => exact h
        cases hf : firstValid k' data with
        | none =>
            simp [scanBases, List.filterMap_cons, hf]
            exact ih hk'
        | some b =>
            simp only [scanBases, List.filterMap_cons, hf, Option.map_some]
            show lookupKey k ((k', b) :: scanBases ks data) = firstValid k data
            simp [lookupKey, he]
            exact ih hk'

theorem lookup_scanBases_not_mem {k : String} {data : List ChartPoint}
    {keys : List String} (hk : k ∉ keys) :
    lookupKey k (scanBases keys data) = none := by
  induction keys with
  | nil => rfl
  | cons k' ks ih =>
      have he : k' ≠ k := fun h => hk (h ▸ List.mem_cons_self _ _)
      have hk' : k ∉ ks := fun h => hk (List.mem_cons_of_mem _ h)
      cases hf : firstValid k' data with
      | none =>
          simp [scanBases, List.filterMap_cons, hf]
          exact ih hk'
      | some b =>
          simp only [scanBases, List.filterMap_cons, hf, Option.map_some]
          show lookupKey k ((k', b) :: scanBases ks data) = none
          simp [lookupKey, he]
          exact ih hk'

theorem firstValid_of_first_present {k : String} {q : ℚ} :
    ∀ (data : List ChartPoint) (i : ℕ) (hi : i < data.length),
      (∀ j (hj : j < i), absentAt k (data.get ⟨j, Nat.lt_trans hj hi⟩)) →
      lookupKey k ((data.get ⟨i, hi⟩).vals) = some (some q) →
      firstValid k data = some q := by
  intro data
  induction data with
  | nil => intro i hi; exact absurd hi (Nat.not_lt_zero i)
  | cons p rest ih =>
      intro i hi habs hq
      cases i with
      | zero =>
          show (match lookupKey k p.vals with
            | some (some q) => some q
            | _ => firstValid k rest) = some q
          simp only [List.get] at hq
          rw [hq]
      | succ i =>
          have hp : absentAt k p := habs 0 (Nat.succ_pos i)
          have hrest : firstValid k rest = some q := by
            refine ih i (Nat.lt_of_succ_lt_succ hi) ?_ ?_
            · intro j hj
              exact habs (j + 1) (Nat.succ_lt_succ hj)
            · exact hq
          show (match lookupKey k p.vals with
            | some (some q) => some q
            | _ => firstValid k rest) = some q
          cases hl : lookupKey k p.vals with
          | none => exact hrest
          | some v =>
              cases v with
              | none => exact hrest
              | some q0 => exact absurd hl (absentAt_lookup hp q0)

theorem lookup_normPointVals_present {bases : List (String × ℚ)}
    {vals : List (String × Option ℚ)} {k : String} {q : ℚ}
    (h : lookupKey k vals = some (some q)) :
    lookupKey k (normPointVals bases vals) =
      some (JsNum.mul
        (match lookupKey k bases with
         | some b => JsNum.div (JsNum.num q) (JsNum.num b)
         | none => JsNum.nan)
        (JsNum.num 100)) := by
  induction vals with
  | nil => simp [lookupKey] at h
  | cons kv rest ih =>
      obtain ⟨k', v⟩ := kv
      by_cases hk : k' = k
      · subst hk
        simp [lookupKey] at h
        subst h
        simp [normPointVals, List.filterMap_cons, lookupKey]
      · simp [lookupKey, hk] at h
        cases v with
        | none =>
            simp only [normPointVals, List.filterMap_cons]
            exact ih h
        | some q0 =>
            simp only [normPointVals, List.filterMap_cons]
            show lookupKey k ((k', _) :: normPointVals bases rest) = _
            simp [lookupKey, hk]
            exact ih h

theorem lookup_normPointVals_absent {bases : List (String × ℚ)}
    {vals : List (String × Option ℚ)} {k : String}
    (h : ∀ kv ∈ vals, kv.1 = k → kv.2 = none) :
    lookupKey k (normPointVals bases vals) = none := by
  induction vals with
  | nil => rfl
  | cons kv rest ih =>
      obtain ⟨k', v⟩ := kv
      have hrest : ∀ kv ∈ rest, kv.1 = k → kv.2 = none := fun kv hm =>
        h kv (List.mem_cons_of_mem _ hm)
      by_cases hk : k' = k
      · have hv : v = none := h (k', v) (List.mem_cons_self _ _) hk
        subst hv
        simp only [normPointVals, List.filterMap_cons]
        exact ih hrest
      · cases v with
        | none =>
            simp only [normPointVals, List.filterMap_cons]
            exact ih hrest
        | some q0 =>
            simp only [normPointVals, List.filterMap_cons]
            show lookupKey k ((k', _) :: normPointVals bases rest) = _
            simp [lookupKey, hk]
            exact ih hrest

theorem wtStep_nan (ti : ℚ) (nvals : List (String × JsNum))
    (h : PortfolioHolding) : wtStep ti nvals JsNum.nan h = JsNum.nan := by
  unfold wtStep
  cases lookupKey h.symbol nvals with
  | none => rfl
  | some v => exact JsNum.add_nan_left _

theorem foldl_wtStep_nan (ti : ℚ) (nvals : List (String × JsNum))
    (l : List PortfolioHolding) :
    l.foldl (wtStep ti nvals) JsNum.nan = JsNum.nan := by
  induction l with
  | nil => rfl
  | cons h t ih => simpa [wtStep_nan] using ih

theorem foldl_wtStep_zero (nvals : List (String × JsNum))
    (l : List PortfolioHolding) (hz : ∀ h ∈ l, h.shares = 0) :
    l.foldl (wtStep 0 nvals) (JsNum.num 0) =
      if l.any (fun h => (lookupKey h.symbol nvals).isSome) then JsNum.nan
      else JsNum.num 0 := by
  induction l with
  | nil => rfl
  | cons h t ih =>
      have hs : h.shares = 0 := hz h (List.mem_cons_self _ _)
      have ht : ∀ h' ∈ t, h'.shares = 0 := fun h' hm => hz h' (List.mem_cons_of_mem _ hm)
      cases hl : lookupKey h.symbol nvals with
      | none =>
          have hstep : wtStep 0 nvals (JsNum.num 0) h = JsNum.num 0 := by
            unfold wtStep; rw [hl]
          simp only [List.foldl_cons, hstep, List.any_cons, hl, Option.isSome_none,
            Bool.false_or]
          exact ih ht
      | some v =>
          have hstep : wtStep 0 nvals (JsNum.num 0) h = JsNum.nan := by
            simp only [wtStep, hl, hs, JsNum.div_zero_zero, JsNum.mul_nan_right,
              JsNum.add_nan_right]
          simp only [List.foldl_cons, hstep, List.any_cons, hl, Option.isSome_some,
            Bool.true_or, if_pos]
          exact foldl_wtStep_nan 0 nvals t

theorem foldl_wtStep_nan_member (ti : ℚ) (nvals : List (String × JsNum))
    (l : List PortfolioHolding) (s : JsNum)
    (hm : ∃ h0 ∈ l, lookupKey h0.symbol nvals = some JsNum.nan) :
    l.foldl (wtStep ti nvals) s = JsNum.nan := by
  induction l generalizing s with
  | nil => obtain ⟨h0, hmem, _⟩ := hm; cases hmem
  | cons h t ih =>
      obtain ⟨h0, hmem, hl0⟩ := hm
      cases List.mem_cons.mp hmem with
      | inl he =>
          subst he
          have hstep : wtStep ti nvals s h0 = JsNum.nan := by
            simp only [wtStep, hl0, JsNum.mul_nan_left, JsNum.add_nan_right]
          simp only [List.foldl_cons, hstep]
          exact foldl_wtStep_nan ti nvals t
      | inr htm =>
          simp only [List.foldl_cons]
          exact ih _ ⟨h0, htm, hl0⟩

theorem foldl_wtStep_skip (ti : ℚ) (nvals : List (String × JsNum)) (k : String)
    (l : List PortfolioHolding) (s : JsNum) (hnone : lookupKey k nvals = none) :
    l.foldl (wtStep ti nvals) s
      = (l.filter (fun h => h.symbol ≠ k)).foldl (wtStep ti nvals) s := by
  induction l generalizing s with
  | nil => rfl
  | cons h t ih =>
      by_cases hk : h.symbol = k
      · have hstep : wtStep ti nvals s h = s := by
          unfold wtStep; rw [hk, hnone]
        simp only [List.foldl_cons, hstep, List.filter_cons, hk]
        simpa using ih s
      · simp only [List.foldl_cons, List.filter_cons]
        have : (decide (h.symbol ≠ k)) = true := by simpa using hk
        rw [this]
        simp only [List.foldl_cons]
        exact ih _

theorem normalizeData_eq_some {data : List ChartPoint} {portfolio : Portfolio}
    {out : List NormPoint} (h : normalizeData data portfolio = some out) :
    out = data.map (fun p =>
      let nvals := normPointVals (baseValuesOf data) p.vals
      { date := p.date, vals := nvals
        TOTAL := weightedTotal portfolio.holdings (totalInvestment portfolio) nvals }) := by
  cases data with
  | nil => simp [normalizeData] at h
  | cons first rest =>
      simp only [normalizeData, Option.some_inj] at h
      exact h.symm

theorem foldl_add_shares (l : List PortfolioHolding) (a : ℚ) :
    l.foldl (fun sum h => sum + h.shares) a = a + (l.map PortfolioHolding.shares).sum := by
  induction l generalizing a with
  | nil => simp
  | cons h t ih => simp [ih, add_assoc]

theorem totalInvestment_zero {portfolio : Portfolio}
    (hz : ∀ h ∈ portfolio.holdings, h.symbol ≠ "CASH" → h.shares = 0) :
    totalInvestment portfolio = 0 := by
  unfold totalInvestment
  rw [foldl_add_shares, zero_add]
  apply List.sum_eq_zero
  intro x hx
  obtain ⟨h, hmem, hxe⟩ := List.mem_map.mp hx
  obtain ⟨hmem2, hsym⟩ := List.mem_filter.mp hmem
  rw [← hxe]
  exact hz h hmem2 (by simpa using hsym)

theorem foldl_add_snd (l : List (String × ℚ)) (a : ℚ) :
    l.foldl (fun sum item => sum + item.2) a = a + (l.map Prod.snd).sum := by
  induction l generalizing a with
  | nil => simp
  | cons x t ih => simp [ih, add_assoc]

theorem sum_filter_pos (l : List (String × ℚ)) (h : ∀ x ∈ l, 0 ≤ x.2) :
    ((l.filter (fun item => 0 < item.2)).map Prod.snd).sum = (l.map Prod.snd).sum := by
  induction l with
  | nil => rfl
  | cons x t ih =>
      have hx : 0 ≤ x.2 := h x (List.mem_cons_self _ _)
      have ht : ∀ y ∈ t, 0 ≤ y.2 := fun y hy => h y (List.mem_cons_of_mem _ hy)
      by_cases hp : 0 < x.2
      · simp [List.filter_cons, hp, ih ht]
      · have hx0 : x.2 = 0 := le_antisymm (not_lt.mp hp) hx
        simp [List.filter_cons, hp, ih ht, hx0]

theorem pieValue_eq_rowValue (cp : List (String × ℚ)) (h : PortfolioHolding) :
    pieValue cp h = rowValue cp h := by
  unfold pieValue rowValue rowPrice
  by_cases hc : h.symbol = "CASH" <;> simp [hc]

theorem totalValue_eq_sum (cp : List (String × ℚ)) (portfolio : Portfolio) :
    totalValue cp portfolio = ((pieData cp portfolio).map Prod.snd).sum := by
  unfold totalValue
  rw [foldl_add_snd, zero_add]

theorem totalValue_nonneg (cp : List (String × ℚ)) (portfolio : Portfolio) :
    0 ≤ totalValue cp portfolio := by
  rw [totalValue_eq_sum]
  apply List.sum_nonneg
  intro x hx
  obtain ⟨y, hy, hxe⟩ := List.mem_map.mp hx
  obtain ⟨_, hpos⟩ := List.mem_filter.mp hy
  rw [← hxe]
  exact le_of_lt (by simpa using hpos)

/-! Claim theorems. -/

/-- C10: `normalizeData` unconditionally reads the first element of its
input (the `Object.keys(data[0])` scan), so for an empty input list the
operation fails (the JS code throws, modelled by `none`) rather than
returning an empty output; on every non-empty input it returns a
result. -/
theorem normalizeData_empty_input (p p' : Portfolio) (data : List ChartPoint)
    (hd : data ≠ []) :
    normalizeData [] p = none ∧ (normalizeData data p').isSome = true := by
  refine ⟨rfl, ?_⟩
  cases data with
  | nil => exact absurd rfl hd
  | cons first rest => simp [normalizeData]

/-- Witness for C10 at a one-point input. -/
theorem normalizeData_empty_input_witness :
    ([⟨"d0", []⟩] : List ChartPoint) ≠ [] ∧
    (normalizeData [] ⟨[], "t"⟩ = none ∧
      (normalizeData [⟨"d0", []⟩] ⟨[], "t"⟩).isSome = true) :=
  ⟨by simp,
   normalizeData_empty_input ⟨[], "t"⟩ ⟨[], "t"⟩ [⟨"d0", []⟩] (by simp)⟩

/-- C6: `handleSharesChange` with a matching symbol stores
`Math.max(0, shares)` for the matching holding (preserving its other
fields), leaves every other holding unchanged, and sets `lastUpdated` to
the current time (the `now` parameter). -/
theorem handleSharesChange_clamps_and_updates (p : Portfolio) (sym : String)
    (sh : ℚ) (now : String) (i : ℕ) (hi : i < p.holdings.length)
    (hi2 : i < (handleSharesChange p sym sh now).holdings.length) :
    (handleSharesChange p sym sh now).lastUpdated = now ∧
    (handleSharesChange p sym sh now).holdings.length = p.holdings.length ∧
    ((p.holdings.get ⟨i, hi⟩).symbol = sym →
      (handleSharesChange p sym sh now).holdings.get ⟨i, hi2⟩
        = { p.holdings.get ⟨i, hi⟩ with shares := max 0 sh }) ∧
    ((p.holdings.get ⟨i, hi⟩).symbol ≠ sym →
      (handleSharesChange p sym sh now).holdings.get ⟨i, hi2⟩
        = p.holdings.get ⟨i, hi⟩) := by
  refine ⟨rfl, by simp [handleSharesChange], ?_, ?_⟩
  · intro hmatch
    simp only [List.get_eq_getElem] at hmatch ⊢
    simp [handleSharesChange, hmatch]
  · intro hmiss
    simp only [List.get_eq_getElem] at hmiss ⊢
    simp [handleSharesChange, hmiss]

/-- Witness for C6: `update("A", -5)` stores 0 (clamped) and refreshes
`lastUpdated`. -/
theorem handleSharesChange_clamps_and_updates_witness :
    (handleSharesChange ⟨[⟨"A", 3, none⟩], "t0"⟩ "A" (-5) "t1").lastUpdated = "t1" ∧
    (handleSharesChange ⟨[⟨"A", 3, none⟩], "t0"⟩ "A" (-5) "t1").holdings.get
        ⟨0, Nat.zero_lt_one⟩ = ⟨"A", 0, none⟩ := by
  have h := handleSharesChange_clamps_and_updates ⟨[⟨"A", 3, none⟩], "t0"⟩ "A" (-5)
    "t1" 0 Nat.zero_lt_one Nat.zero_lt_one
  refine ⟨h.1, ?_⟩
  rw [h.2.2.1 rfl]
  simp

/-- C5 counterexample: the claim says an update targeting a symbol that
matches no holding fails with an `UnknownInstrument` error surfaced to
the caller.  In the code `handleSharesChange` maps over the holdings and,
with no match, returns them unchanged (only `lastUpdated` moves): the
edit is silently ignored and no error of any kind exists. -/
theorem unknown_instrument_counterexample :
    handleSharesChange ⟨[⟨"A", 1, none⟩, ⟨"CASH", 0, none⟩], "t0"⟩ "ZZZ" 5 "t1"
      = ⟨[⟨"A", 1, none⟩, ⟨"CASH", 0, none⟩], "t1"⟩ ∧
    (handleSharesChange ⟨[⟨"A", 1, none⟩, ⟨"CASH", 0, none⟩], "t0"⟩ "ZZZ" 5
        "t1").holdings
      = [⟨"A", 1, none⟩, ⟨"CASH", 0, none⟩] := by
  constructor <;> rfl

/-- C5 amended: an update whose instrument matches no holding returns
normally with all holdings unchanged and only `lastUpdated` refreshed;
it is silently ignored, and no `UnknownInstrument` error exists in the
code. -/
theorem unknown_instrument_silently_ignored (p : Portfolio) (sym : String)
    (sh : ℚ) (now : String) (hno : ∀ h ∈ p.holdings, h.symbol ≠ sym) :
    handleSharesChange p sym sh now = ⟨p.holdings, now⟩ := by
  have hmap : ∀ l : List PortfolioHolding, (∀ h ∈ l, h.symbol ≠ sym) →
      l.map (fun holding =>
        if holding.symbol = sym then { holding with shares := max 0 sh }
        else holding) = l := by
    intro l hl
    induction l with
    | nil => rfl
    | cons h t ih =>
        have h1 : h.symbol ≠ sym := hl h (List.mem_cons_self _ _)
        have h2 := ih (fun h0 hm => hl h0 (List.mem_cons_of_mem _ hm))
        simp [h1, h2]
  unfold handleSharesChange
  rw [hmap p.holdings hno]

/-- Witness for the amended C5 at a concrete portfolio with no matching
symbol. -/
theorem unknown_instrument_silently_ignored_witness :
    (∀ h ∈ (⟨[⟨"A", 1, none⟩], "t0"⟩ : Portfolio).holdings, h.symbol ≠ "ZZZ") ∧
    handleSharesChange ⟨[⟨"A", 1, none⟩], "t0"⟩ "ZZZ" 5 "t1"
      = ⟨[⟨"A", 1, none⟩], "t1"⟩ :=
  ⟨by simp,
   unknown_instrument_silently_ignored ⟨[⟨"A", 1, none⟩], "t0"⟩ "ZZZ" 5 "t1"
     (by simp)⟩

/-- C1 counterexample: the claim says a portfolio with zero total
non-CASH shares gives `TOTAL = 0` at every timestamp.  In the code the
weight is `shares / totalInvestment = 0 / 0 = NaN`, so `TOTAL` is NaN
(not 0) at every timestamp where some non-CASH holding has a defined
normalized value. -/
theorem weightedTotal_zero_portfolio_counterexample :
    totalInvestment ⟨[⟨"A", 0, none⟩, ⟨"CASH", 0, none⟩], "t"⟩ = 0 ∧
    normalizeData [⟨"d0", [("A", some 10)]⟩]
        ⟨[⟨"A", 0, none⟩, ⟨"CASH", 0, none⟩], "t"⟩
      = some [⟨"d0", [("A", JsNum.num 100)], JsNum.nan⟩] ∧
    JsNum.nan ≠ JsNum.num 0 := by
  refine ⟨by simp [totalInvestment], ?_, by simp⟩
  simp [normalizeData, scanBases, firstValid, lookupKey, normPointVals,
    weightedTotal, wtStep, totalInvestment, JsNum.add, JsNum.mul, JsNum.div]

/-- C1 amended: for a portfolio in which every non-CASH holding has zero
shares, `TOTAL` is NaN (never an error, but NaN rather than 0) at every
timestamp where at least one non-CASH holding's symbol has a defined
normalized value, and 0 only at timestamps where none does. -/
theorem weightedTotal_zero_portfolio_nan (data : List ChartPoint)
    (portfolio : Portfolio) (out : List NormPoint)
    (hz : ∀ h ∈ portfolio.holdings, h.symbol ≠ "CASH" → h.shares = 0)
    (hout : normalizeData data portfolio = some out) :
    ∀ np ∈ out, np.TOTAL =
      if (portfolio.holdings.filter (fun h => h.symbol ≠ "CASH")).any
          (fun h => (lookupKey h.symbol np.vals).isSome)
      then JsNum.nan else JsNum.num 0 := by
  intro np hnp
  rw [normalizeData_eq_some hout] at hnp
  obtain ⟨p, hp, hpe⟩ := List.mem_map.mp hnp
  subst hpe
  dsimp only
  rw [totalInvestment_zero hz]
  unfold weightedTotal
  apply foldl_wtStep_zero
  intro h hm
  obtain ⟨hmem, hsym⟩ := List.mem_filter.mp hm
  exact hz h hmem (by simpa using hsym)

/-- Witness for the amended C1 at a concrete all-zero portfolio. -/
theorem weightedTotal_zero_portfolio_nan_witness :
    (∀ h ∈ (⟨[⟨"A", 0, none⟩, ⟨"CASH", 0, none⟩], "t"⟩ : Portfolio).holdings,
        h.symbol ≠ "CASH" → h.shares = 0) ∧
    normalizeData [⟨"d0", [("A", some 10)]⟩]
        ⟨[⟨"A", 0, none⟩, ⟨"CASH", 0, none⟩], "t"⟩
      = some [⟨"d0", [("A", JsNum.num 100)], JsNum.nan⟩] ∧
    (∀ np ∈ [(⟨"d0", [("A", JsNum.num 100)], JsNum.nan⟩ : NormPoint)], np.TOTAL =
      if ((⟨[⟨"A", 0, none⟩, ⟨"CASH", 0, none⟩], "t"⟩ : Portfolio).holdings.filter
            (fun h => h.symbol ≠ "CASH")).any
          (fun h => (lookupKey h.symbol np.vals).isSome)
      then JsNum.nan else JsNum.num 0) := by
  have hout : normalizeData [⟨"d0", [("A", some 10)]⟩]
      ⟨[⟨"A", 0, none⟩, ⟨"CASH", 0, none⟩], "t"⟩
      = some [⟨"d0", [("A", JsNum.num 100)], JsNum.nan⟩] := by
    simp [normalizeData, scanBases, firstValid, lookupKey, normPointVals,
      weightedTotal, wtStep, totalInvestment, JsNum.add, JsNum.mul, JsNum.div]
  exact ⟨by simp, hout,
    weightedTotal_zero_portfolio_nan _ _ _ (by simp) hout⟩

/-- C2 counterexample: the claim says a zero base value makes
normalization fail with a `DegenerateBase` condition and that division by
zero is never performed silently.  In the code there is no such
condition: with base 0 the division is performed silently, and
`normalizeData` returns a result in which the zero-base entry at a later
point is `Infinity` (and `NaN` where the raw value is 0). -/
theorem degenerate_base_counterexample :
    normalizeData [⟨"d0", [("A", some 0)]⟩, ⟨"d1", [("A", some 5)]⟩] ⟨[], "t"⟩
      = some [⟨"d0", [("A", JsNum.nan)], JsNum.num 0⟩,
              ⟨"d1", [("A", JsNum.inf)], JsNum.num 0⟩] := by
  simp [normalizeData, scanBases, firstValid, lookupKey, normPointVals,
    weightedTotal, wtStep, totalInvestment, JsNum.mul, JsNum.div]

/-- C2 amended: when the scanned base value for an instrument is exactly
zero, `normalizeData` does not fail and performs the division by zero
silently: at every point where the raw value is present the normalized
entry is `NaN` if the raw value is 0, `+Infinity` if it is positive and
`-Infinity` if it is negative. -/
theorem degenerate_base_silent_division (data : List ChartPoint)
    (portfolio : Portfolio) (out : List NormPoint) (k : String) (i : ℕ) (q : ℚ)
    (hi : i < data.length)
    (hbase : lookupKey k (baseValuesOf data) = some 0)
    (hq : lookupKey k ((data.get ⟨i, hi⟩).vals) = some (some q))
    (hout : normalizeData data portfolio = some out) :
    ∃ hi2 : i < out.length,
      lookupKey k ((out.get ⟨i, hi2⟩).vals)
        = some (if q = 0 then JsNum.nan
                else if 0 < q then JsNum.inf else JsNum.ninf) := by
  have hodef := normalizeData_eq_some hout
  subst hodef
  refine ⟨by simpa using hi, ?_⟩
  rw [List.get_eq_getElem] at hq
  rw [List.get_eq_getElem, List.getElem_map]
  dsimp only
  rw [lookup_normPointVals_present hq, hbase]
  rcases lt_trichotomy q 0 with hq0 | hq0 | hq0
  · have h1 : ¬q = 0 := ne_of_lt hq0
    have h2 : ¬0 < q := not_lt_of_lt hq0
    simp [JsNum.div, JsNum.mul, h1, h2]
  · simp [JsNum.div, JsNum.mul, hq0]
  · have h1 : ¬q = 0 := (ne_of_lt hq0).symm
    simp [JsNum.div, JsNum.mul, h1, hq0]

/-- Witness for the amended C2: base 0, a later positive raw value 5, and
the resulting silent `Infinity`. -/
theorem degenerate_base_silent_division_witness :
    lookupKey "A" (baseValuesOf [⟨"d0", [("A", some 0)]⟩, ⟨"d1", [("A", some 5)]⟩])
      = some 0 ∧
    (∃ hi2 : (1 : ℕ) < ([⟨"d0", [("A", JsNum.nan)], JsNum.num 0⟩,
               ⟨"d1", [("A", JsNum.inf)], JsNum.num 0⟩] : List NormPoint).length,
      lookupKey "A"
          ((([⟨"d0", [("A", JsNum.nan)], JsNum.num 0⟩,
              ⟨"d1", [("A", JsNum.inf)], JsNum.num 0⟩] : List NormPoint).get
            ⟨1, hi2⟩).vals)
        = some (if (5 : ℚ) = 0 then JsNum.nan
                else if 0 < (5 : ℚ) then JsNum.inf else JsNum.ninf)) := by
  have hbase : lookupKey "A"
      (baseValuesOf [⟨"d0", [("A", some 0)]⟩, ⟨"d1", [("A", some 5)]⟩]) = some 0 := by
    simp [baseValuesOf, scanBases, firstValid, lookupKey]
  have hout : normalizeData [⟨"d0", [("A", some 0)]⟩, ⟨"d1", [("A", some 5)]⟩]
      ⟨[], "t"⟩
      = some [⟨"d0", [("A", JsNum.nan)], JsNum.num 0⟩,
              ⟨"d1", [("A", JsNum.inf)], JsNum.num 0⟩] := by
    simp [normalizeData, scanBases, firstValid, lookupKey, normPointVals,
      weightedTotal, wtStep, totalInvestment, JsNum.mul, JsNum.div]
  refine ⟨hbase, ?_⟩
  simpa using degenerate_base_silent_division
    [⟨"d0", [("A", some 0)]⟩, ⟨"d1", [("A", some 5)]⟩] ⟨[], "t"⟩ _ "A" 1 5
    (by simp) hbase (by simp [lookupKey]) hout

/-- C3 counterexample: the claim says that for every input series with at
least one non-absent value the normalized value at the first non-absent
index is exactly 100.  When that first value is 0 the code computes
`(0 / 0) * 100 = NaN`, not 100. -/
theorem first_point_hundred_counterexample :
    normalizeData [⟨"d0", [("A", some 0)]⟩] ⟨[], "t"⟩
      = some [⟨"d0", [("A", JsNum.nan)], JsNum.num 0⟩] ∧
    JsNum.nan ≠ JsNum.num 100 := by
  refine ⟨?_, by simp⟩
  simp [normalizeData, scanBases, firstValid, lookupKey, normPointVals,
    weightedTotal, wtStep, totalInvestment, JsNum.mul, JsNum.div]

/-- C3 amended: for every input series whose key appears in the first
data point and whose first non-absent value is NONZERO, the normalized
value at the first non-absent index is exactly 100.  (A zero first value
yields NaN, and a key missing from the first data point gets no base at
all; see the other claims.) -/
theorem first_point_hundred_of_base_nonzero (first : ChartPoint)
    (rest : List ChartPoint) (portfolio : Portfolio) (out : List NormPoint)
    (k : String) (i : ℕ) (q : ℚ)
    (hi : i < (first :: rest).length)
    (hk : k ∈ first.vals.map Prod.fst)
    (hbefore : ∀ j (hj : j < i),
      absentAt k ((first :: rest).get ⟨j, Nat.lt_trans hj hi⟩))
    (hq : lookupKey k (((first :: rest).get ⟨i, hi⟩).vals) = some (some q))
    (hq0 : q ≠ 0)
    (hout : normalizeData (first :: rest) portfolio = some out) :
    ∃ hi2 : i < out.length,
      lookupKey k ((out.get ⟨i, hi2⟩).vals) = some (JsNum.num 100) := by
  have hfv : firstValid k (first :: rest) = some q :=
    firstValid_of_first_present (first :: rest) i hi hbefore hq
  have hbase : lookupKey k (baseValuesOf (first :: rest)) = some q := by
    show lookupKey k (scanBases (first.vals.map Prod.fst) (first :: rest)) = some q
    rw [lookup_scanBases hk, hfv]
  have hodef := normalizeData_eq_some hout
  subst hodef
  refine ⟨by simpa using hi, ?_⟩
  rw [List.get_eq_getElem] at hq
  rw [List.get_eq_getElem, List.getElem_map]
  dsimp only
  rw [lookup_normPointVals_present hq, hbase]
  simp [JsNum.div, JsNum.mul, hq0, div_self hq0]

/-- Witness for the amended C3: first value 10 at index 0 normalizes to
exactly 100. -/
theorem first_point_hundred_of_base_nonzero_witness :
    (10 : ℚ) ≠ 0 ∧
    normalizeData [⟨"d0", [("A", some 10)]⟩] ⟨[], "t"⟩
      = some [⟨"d0", [("A", JsNum.num 100)], JsNum.num 0⟩] ∧
    (∃ hi2 : (0 : ℕ) <
        ([⟨"d0", [("A", JsNum.num 100)], JsNum.num 0⟩] : List NormPoint).length,
      lookupKey "A"
          ((([⟨"d0", [("A", JsNum.num 100)], JsNum.num 0⟩] : List NormPoint).get
            ⟨0, hi2⟩).vals)
        = some (JsNum.num 100)) := by
  have hout : normalizeData [⟨"d0", [("A", some 10)]⟩] ⟨[], "t"⟩
      = some [⟨"d0", [("A", JsNum.num 100)], JsNum.num 0⟩] := by
    simp [normalizeData, scanBases, firstValid, lookupKey, normPointVals,
      weightedTotal, wtStep, totalInvestment, JsNum.mul, JsNum.div]
  refine ⟨by norm_num, hout, ?_⟩
  exact first_point_hundred_of_base_nonzero ⟨"d0", [("A", some 10)]⟩ [] ⟨[], "t"⟩ _
    "A" 0 10 (by simp)
    (by simp)
    (fun j hj => absurd hj (Nat.not_lt_zero j))
    (by simp [lookupKey]) (by norm_num) hout

/-- C8: for every series with a defined nonzero base, at every index
where the raw value is present the normalized value is exactly
`(value / base) * 100`, and multiplying it by the base and dividing by
100 reconstructs the original price exactly in rational arithmetic. -/
theorem normalization_roundTrip (data : List ChartPoint)
    (portfolio : Portfolio) (out : List NormPoint) (k : String) (i : ℕ) (q b : ℚ)
    (hi : i < data.length)
    (hb : lookupKey k (baseValuesOf data) = some b)
    (hb0 : b ≠ 0)
    (hq : lookupKey k ((data.get ⟨i, hi⟩).vals) = some (some q))
    (hout : normalizeData data portfolio = some out) :
    ∃ hi2 : i < out.length,
      lookupKey k ((out.get ⟨i, hi2⟩).vals) = some (JsNum.num (q / b * 100)) ∧
      q / b * 100 * b / 100 = q := by
  have hodef := normalizeData_eq_some hout
  subst hodef
  refine ⟨by simpa using hi, ?_, ?_⟩
  · rw [List.get_eq_getElem] at hq
    rw [List.get_eq_getElem, List.getElem_map]
    dsimp only
    rw [lookup_normPointVals_present hq, hb]
    simp [JsNum.div, hb0, JsNum.mul]
  · field_simp

/-- Witness for C8: base 10, raw value 25 normalizes to 250, and
`250 * 10 / 100 = 25`. -/
theorem normalization_roundTrip_witness :
    lookupKey "A" (baseValuesOf
        [⟨"d0", [("A", some 10)]⟩, ⟨"d1", [("A", some 25)]⟩]) = some 10 ∧
    (10 : ℚ) ≠ 0 ∧
    (∃ hi2 : (1 : ℕ) <
        ([⟨"d0", [("A", JsNum.num 100)], JsNum.num 0⟩,
          ⟨"d1", [("A", JsNum.num 250)], JsNum.num 0⟩] : List NormPoint).length,
      lookupKey "A"
          ((([⟨"d0", [("A", JsNum.num 100)], JsNum.num 0⟩,
              ⟨"d1", [("A", JsNum.num 250)], JsNum.num 0⟩] : List NormPoint).get
            ⟨1, hi2⟩).vals)
        = some (JsNum.num ((25 : ℚ) / 10 * 100)) ∧
      (25 : ℚ) / 10 * 100 * 10 / 100 = 25) := by
  have hb : lookupKey "A" (baseValuesOf
      [⟨"d0", [("A", some 10)]⟩, ⟨"d1", [("A", some 25)]⟩]) = some 10 := by
    simp [baseValuesOf, scanBases, firstValid, lookupKey]
  have hout : normalizeData [⟨"d0", [("A", some 10)]⟩, ⟨"d1", [("A", some 25)]⟩]
      ⟨[], "t"⟩
      = some [⟨"d0", [("A", JsNum.num 100)], JsNum.num 0⟩,
              ⟨"d1", [("A", JsNum.num 250)], JsNum.num 0⟩] := by
    simp [normalizeData, scanBases, firstValid, lookupKey, normPointVals,
      weightedTotal, wtStep, totalInvestment, JsNum.mul, JsNum.div]
    norm_num
  refine ⟨hb, by norm_num, ?_⟩
  simpa using normalization_roundTrip
    [⟨"d0", [("A", some 10)]⟩, ⟨"d1", [("A", some 25)]⟩] ⟨[], "t"⟩ _ "A" 1 25 10
    (by simp) hb (by norm_num) (by simp [lookupKey]) hout

/-- C9: the base-value scan only considers keys present in the first data
point.  If an instrument has no entry at the first timestamp but a
present value later, no base exists for it, its later normalized value is
NaN (`value / undefined`), and that NaN propagates into the weighted
`TOTAL` whenever a non-CASH holding carries that symbol — instead of the
series being treated as a NoBaseValue omission. -/
theorem missing_first_key_nan_total (first : ChartPoint)
    (rest : List ChartPoint) (portfolio : Portfolio) (out : List NormPoint)
    (k : String) (i : ℕ) (q : ℚ) (h0 : PortfolioHolding)
    (hi : i < (first :: rest).length)
    (hk : k ∉ first.vals.map Prod.fst)
    (hq : lookupKey k (((first :: rest).get ⟨i, hi⟩).vals) = some (some q))
    (hmem : h0 ∈ portfolio.holdings) (hsym : h0.symbol = k)
    (hcash : k ≠ "CASH")
    (hout : normalizeData (first :: rest) portfolio = some out) :
    ∃ hi2 : i < out.length,
      lookupKey k ((out.get ⟨i, hi2⟩).vals) = some JsNum.nan ∧
      (out.get ⟨i, hi2⟩).TOTAL = JsNum.nan := by
  have hbase : lookupKey k (baseValuesOf (first :: rest)) = none := by
    show lookupKey k (scanBases (first.vals.map Prod.fst) (first :: rest)) = none
    exact lookup_scanBases_not_mem hk
  have hodef := normalizeData_eq_some hout
  subst hodef
  refine ⟨by simpa using hi, ?_⟩
  rw [List.get_eq_getElem] at hq
  rw [List.get_eq_getElem, List.getElem_map]
  dsimp only
  have hlk : lookupKey k
      (normPointVals (baseValuesOf (first :: rest)) ((first :: rest)[i]).vals)
      = some JsNum.nan := by
    rw [lookup_normPointVals_present hq, hbase]
    rfl
  refine ⟨hlk, ?_⟩
  unfold weightedTotal
  apply foldl_wtStep_nan_member
  refine ⟨h0, ?_, ?_⟩
  · rw [List.mem_filter]
    exact ⟨hmem, by simp [hsym, hcash]⟩
  · rw [hsym]
    exact hlk

/-- Witness for C9: symbol A absent at the first timestamp, present at
the second; its normalized value there is NaN and so is TOTAL. -/
theorem missing_first_key_nan_total_witness :
    ("A" ∉ ((⟨"d0", []⟩ : ChartPoint)).vals.map Prod.fst) ∧
    normalizeData [⟨"d0", []⟩, ⟨"d1", [("A", some 5)]⟩]
        ⟨[⟨"A", 2, none⟩, ⟨"CASH", 3, none⟩], "t"⟩
      = some [⟨"d0", [], JsNum.num 0⟩, ⟨"d1", [("A", JsNum.nan)], JsNum.nan⟩] ∧
    (∃ hi2 : (1 : ℕ) <
        ([⟨"d0", [], JsNum.num 0⟩,
          ⟨"d1", [("A", JsNum.nan)], JsNum.nan⟩] : List NormPoint).length,
      lookupKey "A"
          ((([⟨"d0", [], JsNum.num 0⟩,
              ⟨"d1", [("A", JsNum.nan)], JsNum.nan⟩] : List NormPoint).get
            ⟨1, hi2⟩).vals)
        = some JsNum.nan ∧
      (([⟨"d0", [], JsNum.num 0⟩,
         ⟨"d1", [("A", JsNum.nan)], JsNum.nan⟩] : List NormPoint).get
        ⟨1, hi2⟩).TOTAL = JsNum.nan) := by
  have hout : normalizeData [⟨"d0", []⟩, ⟨"d1", [("A", some 5)]⟩]
      ⟨[⟨"A", 2, none⟩, ⟨"CASH", 3, none⟩], "t"⟩
      = some [⟨"d0", [], JsNum.num 0⟩, ⟨"d1", [("A", JsNum.nan)], JsNum.nan⟩] := by
    simp [normalizeData, scanBases, firstValid, lookupKey, normPointVals,
      weightedTotal, wtStep, totalInvestment, JsNum.mul, JsNum.div, JsNum.add]
  refine ⟨by simp, hout, ?_⟩
  simpa using missing_first_key_nan_total ⟨"d0", []⟩ [⟨"d1", [("A", some 5)]⟩]
    ⟨[⟨"A", 2, none⟩, ⟨"CASH", 3, none⟩], "t"⟩ _ "A" 1 5 ⟨"A", 2, none⟩
    (by simp) (by simp) (by simp [lookupKey]) (by simp) rfl (by simp) hout

theorem lookupKey_cons {α : Type} (j k' : String) (v : α) (l : List (String × α)) :
    lookupKey j ((k', v) :: l) = if k' = j then some v else lookupKey j l := rfl

theorem filter_ne_cons_eq {α : Type} (k k' : String) (v : α) (l : List (String × α)) :
    ((k', v) :: l).filter (fun kv => kv.1 ≠ k)
      = if k' = k then l.filter (fun kv => kv.1 ≠ k)
        else (k', v) :: l.filter (fun kv => kv.1 ≠ k) := by
  by_cases h : k' = k <;> simp [List.filter_cons, h]

theorem filter_str_cons_eq (k k' : String) (l : List String) :
    (k' :: l).filter (fun x => x ≠ k)
      = if k' = k then l.filter (fun x => x ≠ k)
        else k' :: l.filter (fun x => x ≠ k) := by
  by_cases h : k' = k <;> simp [List.filter_cons, h]

theorem lookupKey_filter_ne {α : Type} {j k : String} (hjk : j ≠ k)
    (l : List (String × α)) :
    lookupKey j (l.filter (fun kv => kv.1 ≠ k)) = lookupKey j l := by
  induction l with
  | nil => rfl
  | cons kv rest ih =>
      obtain ⟨k', v⟩ := kv
      by_cases hk : k' = k
      · have h2 : ¬(k' = j) := fun hh => hjk (by rw [← hh, hk])
        rw [filter_ne_cons_eq, if_pos hk, lookupKey_cons, if_neg h2, ih]
      · rw [filter_ne_cons_eq, if_neg hk, lookupKey_cons, lookupKey_cons]
        by_cases hj : k' = j
        · rw [if_pos hj, if_pos hj]
        · rw [if_neg hj, if_neg hj, ih]

theorem lookupKey_filter_self {α : Type} (k : String) (l : List (String × α)) :
    lookupKey k (l.filter (fun kv => kv.1 ≠ k)) = none := by
  induction l with
  | nil => rfl
  | cons kv rest ih =>
      obtain ⟨k', v⟩ := kv
      by_cases hk : k' = k
      · rw [filter_ne_cons_eq, if_pos hk]
        exact ih
      · rw [filter_ne_cons_eq, if_neg hk, lookupKey_cons, if_neg hk]
        exact ih

theorem firstValid_erase_ne {j k : String} (hjk : j ≠ k)
    (data : List ChartPoint) :
    firstValid j (data.map (erasePointKey k)) = firstValid j data := by
  induction data with
  | nil => rfl
  | cons p rest ih =>
      show (match lookupKey j (erasePointKey k p).vals with
        | some (some q) => some q
        | _ => firstValid j (rest.map (erasePointKey k))) =
        (match lookupKey j p.vals with
        | some (some q) => some q
        | _ => firstValid j rest)
      rw [show (erasePointKey k p).vals = p.vals.filter (fun kv => kv.1 ≠ k) from rfl,
        lookupKey_filter_ne hjk, ih]

theorem firstValid_erase_self (k : String) (data : List ChartPoint) :
    firstValid k (data.map (erasePointKey k)) = none := by
  induction data with
  | nil => rfl
  | cons p rest ih =>
      show (match lookupKey k (erasePointKey k p).vals with
        | some (some q) => some q
        | _ => firstValid k (rest.map (erasePointKey k))) = none
      rw [show (erasePointKey k p).vals = p.vals.filter (fun kv => kv.1 ≠ k) from rfl,
        lookupKey_filter_self]
      exact ih

theorem scanBases_congr {keys : List String} {d1 d2 : List ChartPoint}
    (h : ∀ j ∈ keys, firstValid j d1 = firstValid j d2) :
    scanBases keys d1 = scanBases keys d2 := by
  induction keys with
  | nil => rfl
  | cons k ks ih =>
      have hh := ih (fun j hj => h j (List.mem_cons_of_mem _ hj))
      simp only [scanBases, List.filterMap_cons] at hh ⊢
      rw [h k (List.mem_cons_self _ _), hh]

theorem scanBases_cons (k' : String) (ks : List String)
    (data : List ChartPoint) :
    scanBases (k' :: ks) data
      = match firstValid k' data with
        | none => scanBases ks data
        | some b => (k', b) :: scanBases ks data := by
  cases hf : firstValid k' data <;>
    simp [scanBases, List.filterMap_cons, hf]

theorem scanBases_filter_ne {k : String} {data : List ChartPoint}
    (h : firstValid k data = none) (keys : List String) :
    scanBases (keys.filter (fun x => x ≠ k)) data = scanBases keys data := by
  induction keys with
  | nil => rfl
  | cons k' ks ih =>
      by_cases hk : k' = k
      · rw [filter_str_cons_eq, if_pos hk, ih, scanBases_cons, hk, h]
      · rw [filter_str_cons_eq, if_neg hk, scanBases_cons, scanBases_cons, ih]

theorem map_fst_filter_ne {α : Type} (k : String) (l : List (String × α)) :
    (l.filter (fun kv => kv.1 ≠ k)).map Prod.fst
      = (l.map Prod.fst).filter (fun x => x ≠ k) := by
  induction l with
  | nil => rfl
  | cons kv rest ih =>
      obtain ⟨k', v⟩ := kv
      rw [filter_ne_cons_eq, List.map_cons, filter_str_cons_eq]
      by_cases hk : k' = k
      · rw [if_pos hk, if_pos hk, ih]
      · rw [if_neg hk, if_neg hk, List.map_cons, ih]

theorem normPointVals_cons (bases : List (String × ℚ)) (k' : String)
    (v : Option ℚ) (rest : List (String × Option ℚ)) :
    normPointVals bases ((k', v) :: rest)
      = match v with
        | none => normPointVals bases rest
        | some q =>
            (k', JsNum.mul
              (match lookupKey k' bases with
               | some b => JsNum.div (JsNum.num q) (JsNum.num b)
               | none => JsNum.nan)
              (JsNum.num 100)) :: normPointVals bases rest := by
  cases v <;> simp [normPointVals, List.filterMap_cons]

theorem normPointVals_erase {bases : List (String × ℚ)} {k : String}
    {vals : List (String × Option ℚ)}
    (h : ∀ kv ∈ vals, kv.1 = k → kv.2 = none) :
    normPointVals bases (vals.filter (fun kv => kv.1 ≠ k))
      = normPointVals bases vals := by
  induction vals with
  | nil => rfl
  | cons kv rest ih =>
      obtain ⟨k', v⟩ := kv
      have hrest := ih (fun kv hm => h kv (List.mem_cons_of_mem _ hm))
      by_cases hk : k' = k
      · have hv : v = none := h (k', v) (List.mem_cons_self _ _) hk
        subst hv
        rw [filter_ne_cons_eq, if_pos hk, hrest, normPointVals_cons]
      · rw [filter_ne_cons_eq, if_neg hk, normPointVals_cons, normPointVals_cons,
          hrest]

/-- C4: for an instrument key whose value is absent (null or missing) at
every data point, `normalizeData` gets no base for it, omits it from
every normalized output point, and its holdings contribute nothing to the
`TOTAL` fold (the fold over all holdings equals the fold with that
symbol's holdings removed, at the same denominator); erasing the key from
the input entirely leaves the output unchanged, so no NaN/undefined
propagates and all other instruments are unaffected. -/
theorem allAbsent_series_omitted (data : List ChartPoint)
    (portfolio : Portfolio) (out : List NormPoint) (k : String)
    (habs : ∀ p ∈ data, absentAt k p)
    (hout : normalizeData data portfolio = some out) :
    normalizeData (data.map (erasePointKey k)) portfolio = some out ∧
    ∀ np ∈ out, lookupKey k np.vals = none ∧
      np.TOTAL = weightedTotal
        (portfolio.holdings.filter (fun h => h.symbol ≠ k))
        (totalInvestment portfolio) np.vals := by
  have hodef := normalizeData_eq_some hout
  subst hodef
  constructor
  · cases data with
    | nil => simp [normalizeData] at hout
    | cons first rest =>
        have hfv : ∀ j, firstValid j ((first :: rest).map (erasePointKey k))
            = firstValid j (first :: rest) := by
          intro j
          by_cases hj : j = k
          · subst hj
            rw [firstValid_erase_self, firstValid_eq_none habs]
          · exact firstValid_erase_ne hj _
        have hkn : firstValid k (first :: rest) = none :=
          firstValid_eq_none habs
        have hbeq : scanBases ((erasePointKey k first).vals.map Prod.fst)
              ((first :: rest).map (erasePointKey k))
            = baseValuesOf (first :: rest) := by
          calc scanBases ((erasePointKey k first).vals.map Prod.fst)
                ((first :: rest).map (erasePointKey k))
              = scanBases ((erasePointKey k first).vals.map Prod.fst)
                  (first :: rest) := scanBases_congr (fun j _ => hfv j)
            _ = scanBases ((first.vals.map Prod.fst).filter (fun x => x ≠ k))
                  (first :: rest) := by
                rw [show (erasePointKey k first).vals
                    = first.vals.filter (fun kv => kv.1 ≠ k) from rfl,
                  map_fst_filter_ne]
            _ = scanBases (first.vals.map Prod.fst) (first :: rest) :=
                scanBases_filter_ne hkn _
            _ = baseValuesOf (first :: rest) := rfl
        show normalizeData (erasePointKey k first :: rest.map (erasePointKey k))
            portfolio = _
        simp only [normalizeData]
        rw [show (erasePointKey k first :: rest.map (erasePointKey k))
            = (first :: rest).map (erasePointKey k) from rfl]
        simp only [hbeq]
        rw [List.map_map]
        congr 1
        apply List.map_congr_left
        intro p hp
        dsimp only [Function.comp, erasePointKey]
        rw [normPointVals_erase (habs p hp)]
  · intro np hnp
    obtain ⟨p, hp, hpe⟩ := List.mem_map.mp hnp
    subst hpe
    dsimp only
    refine ⟨lookup_normPointVals_absent (habs p hp), ?_⟩
    unfold weightedTotal
    rw [foldl_wtStep_skip _ _ k _ _ (lookup_normPointVals_absent (habs p hp))]
    rw [List.filter_comm]

/-- Witness for C4: series B is null at the first point and missing at
the second; it is omitted from the output, erasing it changes nothing,
and TOTAL is the fold over the remaining holdings. -/
theorem allAbsent_series_omitted_witness :
    (∀ p ∈ [(⟨"t0", [("A", some 10), ("B", none)]⟩ : ChartPoint),
            ⟨"t1", [("A", some 20)]⟩], absentAt "B" p) ∧
    normalizeData [⟨"t0", [("A", some 10), ("B", none)]⟩, ⟨"t1", [("A", some 20)]⟩]
        ⟨[⟨"A", 1, none⟩, ⟨"B", 5, none⟩, ⟨"CASH", 0, none⟩], "t"⟩
      = some [⟨"t0", [("A", JsNum.num 100)], JsNum.num (50 / 3)⟩,
              ⟨"t1", [("A", JsNum.num 200)], JsNum.num (100 / 3)⟩] ∧
    (normalizeData
        ([⟨"t0", [("A", some 10), ("B", none)]⟩,
          ⟨"t1", [("A", some 20)]⟩].map (erasePointKey "B"))
        ⟨[⟨"A", 1, none⟩, ⟨"B", 5, none⟩, ⟨"CASH", 0, none⟩], "t"⟩
      = some [⟨"t0", [("A", JsNum.num 100)], JsNum.num (50 / 3)⟩,
              ⟨"t1", [("A", JsNum.num 200)], JsNum.num (100 / 3)⟩] ∧
    ∀ np ∈ [(⟨"t0", [("A", JsNum.num 100)], JsNum.num (50 / 3)⟩ : NormPoint),
            ⟨"t1", [("A", JsNum.num 200)], JsNum.num (100 / 3)⟩],
      lookupKey "B" np.vals = none ∧
      np.TOTAL = weightedTotal
        ((⟨[⟨"A", 1, none⟩, ⟨"B", 5, none⟩, ⟨"CASH", 0, none⟩], "t"⟩ :
            Portfolio).holdings.filter (fun h => h.symbol ≠ "B"))
        (totalInvestment
          ⟨[⟨"A", 1, none⟩, ⟨"B", 5, none⟩, ⟨"CASH", 0, none⟩], "t"⟩) np.vals) := by
  have habs : ∀ p ∈ [(⟨"t0", [("A", some 10), ("B", none)]⟩ : ChartPoint),
      ⟨"t1", [("A", some 20)]⟩], absentAt "B" p := by
    intro p hp
    simp only [List.mem_cons, List.mem_singleton] at hp
    rcases hp with h | h | h
    · subst h; intro kv hkv hk1; simp at hkv; rcases hkv with h2 | h2 <;> simp [h2] at hk1 ⊢
    · subst h; intro kv hkv hk1; simp at hkv; simp [hkv] at hk1
    · cases h
  have hout : normalizeData
      [⟨"t0", [("A", some 10), ("B", none)]⟩, ⟨"t1", [("A", some 20)]⟩]
      ⟨[⟨"A", 1, none⟩, ⟨"B", 5, none⟩, ⟨"CASH", 0, none⟩], "t"⟩
      = some [⟨"t0", [("A", JsNum.num 100)], JsNum.num (50 / 3)⟩,
              ⟨"t1", [("A", JsNum.num 200)], JsNum.num (100 / 3)⟩] := by
    simp [normalizeData, scanBases, firstValid, lookupKey, normPointVals,
      weightedTotal, wtStep, totalInvestment, JsNum.mul, JsNum.div, JsNum.add]
    norm_num
  exact ⟨habs, hout, allAbsent_series_omitted _ _ _ "B" habs hout⟩

theorem pieValue_nonneg (cp : List (String × ℚ)) (h : PortfolioHolding)
    (hs : 0 ≤ h.shares) (hcp : ∀ e ∈ cp, 0 ≤ e.2) : 0 ≤ pieValue cp h := by
  unfold pieValue
  by_cases hc : h.symbol = "CASH"
  · simpa [hc] using hs
  · rw [if_neg hc]
    apply mul_nonneg hs
    cases hl : lookupKey (h.symbol ++ ".AX") cp with
    | none => simp
    | some q =>
        have := hcp _ (lookupKey_mem hl)
        simpa using this

/-- C7: in the valuation table of `PortfolioManager.tsx` the price of a
holding is 1 for CASH, else the `currentPrices` entry keyed by
`symbol + ".AX"`, or 0 when that entry is absent; a holding with an
absent price has value 0 and weight 0; with non-negative shares and
prices the pie total still equals the sum of every holding's value; and
the rendered weight is the percentage `(value / totalValue) * 100` when
the total is positive, and 0 when the total is zero. -/
theorem holding_valuation_contract (cp : List (String × ℚ))
    (portfolio : Portfolio) (h : PortfolioHolding) :
    (h.symbol = "CASH" → rowPrice cp h = 1) ∧
    (∀ q, lookupKey (h.symbol ++ ".AX") cp = some q → h.symbol ≠ "CASH" →
      rowPrice cp h = q) ∧
    (lookupKey (h.symbol ++ ".AX") cp = none → h.symbol ≠ "CASH" →
      rowPrice cp h = 0 ∧ rowValue cp h = 0 ∧ rowWeight cp portfolio h = 0) ∧
    ((∀ h0 ∈ portfolio.holdings, 0 ≤ h0.shares) → (∀ e ∈ cp, 0 ≤ e.2) →
      totalValue cp portfolio
        = (portfolio.holdings.map (fun h0 => rowValue cp h0)).sum) ∧
    (0 < totalValue cp portfolio →
      rowWeight cp portfolio h
        = rowValue cp h / totalValue cp portfolio * 100) ∧
    (totalValue cp portfolio = 0 → rowWeight cp portfolio h = 0) := by
  refine ⟨?_, ?_, ?_, ?_, ?_, ?_⟩
  · intro hc
    simp [rowPrice, hc]
  · intro q hq hc
    simp [rowPrice, hc, hq]
  · intro hq hc
    have hp : rowPrice cp h = 0 := by simp [rowPrice, hc, hq]
    have hv : rowValue cp h = 0 := by simp [rowValue, hp]
    refine ⟨hp, hv, ?_⟩
    unfold rowWeight
    by_cases ht : totalValue cp portfolio = 0
    · rw [if_pos ht]
    · rw [if_neg ht, hv]
      simp
  · intro hsh hcp
    rw [totalValue_eq_sum]
    unfold pieData
    rw [sum_filter_pos _ ?_]
    · rw [List.map_map]
      congr 1
      apply List.map_congr_left
      intro h0 _
      exact pieValue_eq_rowValue cp h0
    · intro x hx
      obtain ⟨h0, hm, hxe⟩ := List.mem_map.mp hx
      rw [← hxe]
      exact pieValue_nonneg cp h0 (hsh h0 hm) hcp
  · intro ht
    unfold rowWeight
    rw [if_neg (ne_of_gt ht)]
  · intro ht
    unfold rowWeight
    rw [if_pos ht]

/-- Witness for C7: price 50 for A, no entry for B; B has price, value
and weight 0, and the pie total equals the sum of all row values. -/
theorem holding_valuation_contract_witness :
    lookupKey ("B" ++ ".AX") [("A.AX", (50 : ℚ))] = none ∧
    (rowPrice [("A.AX", (50 : ℚ))] ⟨"B", 3, none⟩ = 0 ∧
     rowValue [("A.AX", (50 : ℚ))] ⟨"B", 3, none⟩ = 0 ∧
     rowWeight [("A.AX", (50 : ℚ))]
       ⟨[⟨"A", 2, none⟩, ⟨"B", 3, none⟩, ⟨"CASH", 10, none⟩], "t"⟩
       ⟨"B", 3, none⟩ = 0) ∧
    totalValue [("A.AX", (50 : ℚ))]
        ⟨[⟨"A", 2, none⟩, ⟨"B", 3, none⟩, ⟨"CASH", 10, none⟩], "t"⟩
      = ((⟨[⟨"A", 2, none⟩, ⟨"B", 3, none⟩, ⟨"CASH", 10, none⟩], "t"⟩ :
            Portfolio).holdings.map
          (fun h0 => rowValue [("A.AX", (50 : ℚ))] h0)).sum := by
  have h := holding_valuation_contract [("A.AX", (50 : ℚ))]
    ⟨[⟨"A", 2, none⟩, ⟨"B", 3, none⟩, ⟨"CASH", 10, none⟩], "t"⟩ ⟨"B", 3, none⟩
  have hnone : lookupKey ("B" ++ ".AX") [("A.AX", (50 : ℚ))] = none := by
    simp [lookupKey]
  refine ⟨hnone, h.2.2.1 hnone (by simp), h.2.2.2.1 ?_ ?_⟩
  · intro h0 hm
    simp only [List.mem_cons, List.mem_singleton] at hm
    rcases hm with hh | hh | hh | hh
    · subst hh; norm_num
    · subst hh; norm_num
    · subst hh; norm_num
    · cases hh
  · intro e he
    simp only [List.mem_singleton] at he
    subst he
    norm_num
